import Mathlib

/-!
Shallow embedding of the HEBench test-harness frontend core, translated from
the C++ sources:

  * `src/test_harness/src/hebench_utilities.cpp` (directory-name sanitizer,
    global random generator),
  * `src/test_harness/src/hebench_ibenchmark.cpp` (sample-size computation,
    cipher-parameter positions and the cipher-mask path segment),
  * `src/test_harness/benchmarks/DotProduct/src/hebench_dotproduct.cpp`
    (DotProduct matcher and data generator),
  * the LogisticRegression benchmark translation unit (matcher, polynomial
    sigmoid approximations, inference helper),
  * the MatrixMultiply benchmark translation unit (matcher).

Machine integers are modelled as `Nat`/`Int` with explicit reduction
modulo `2^w` where overflow matters.  IEEE-754 `float`/`double` values are
modelled as exact rationals (`ℚ`); the numeric literals in the C++ sources
are decimal literals, embedded here as the corresponding exact rationals.
Loops become structural recursion or folds; C++ functions that throw become
`Option`-valued functions (`none` models a thrown exception).
-/

namespace HeBench

/-- Workload enumeration (`hebench::APIBridge::Workload`); only the members
referenced by the embedded translation units are listed. -/
inductive Workload : Type
  | EltwiseAdd
  | EltwiseMult
  | DotProduct
  | MatrixMultiply
  | LogisticRegression
  | LogisticRegression_PolyD3
  | LogisticRegression_PolyD5
  | LogisticRegression_PolyD7
  deriving DecidableEq, Repr

/-- A workload parameter (`hebench::APIBridge::WorkloadParam`): a tagged
scalar, the tag being `data_type` and the payload the member of the union
selected by the tag.  `u64` payloads are natural numbers (the C++ value is a
`std::uint64_t`). -/
inductive WorkloadParam : Type
  | u64 (v : Nat)
  | i64 (v : Int)
  | f64 (v : ℚ)
  deriving DecidableEq, Repr

/-- Data-type enumeration (`hebench::APIBridge::DataType`), restricted to the
members the harness supports. -/
inductive DataType : Type
  | Int32
  | Int64
  | Float32
  | Float64
  deriving DecidableEq, Repr

/-- The fields of `hebench::APIBridge::BenchmarkDescriptor` read by the
embedded code; the remaining fields (category, scheme, security, `other`,
`cat_params.latency`) are not consulted by any embedded function and are
omitted.  `cat_params.offline.data_count` is modelled as a list of
`std::uint64_t` sample counts, `cipher_param_mask` as its 32-bit value. -/
structure BenchmarkDescriptor : Type where
  workload : Workload
  data_type : DataType
  cipher_param_mask : Nat
  offline_data_count : List Nat
  deriving DecidableEq, Repr

/-! ## Polynomial sigmoid approximations (LogisticRegression translation unit)

`DataGeneratorHelper::evaluatePolynomial` evaluates a polynomial given by its
ascending-power coefficients using Horner's rule: it starts from the highest
coefficient (`rbegin`) and folds `retval = retval * x + *it` over the
remaining coefficients in descending-power order. -/

/-- Horner evaluation of `coeff` (ascending powers) at `x`, translated from
`DataGeneratorHelper::evaluatePolynomial`.  The C++ code dereferences
`rbegin` unconditionally; all call sites pass non-empty coefficient arrays,
and the empty case is mapped to `0`. -/
def evaluatePolynomial (x : ℚ) (coeff : List ℚ) : ℚ :=
  match coeff.reverse with
  | [] => 0
  | c :: cs => cs.foldl (fun retval a => retval * x + a) c

/-- Degree-3 sigmoid approximation `DataGeneratorHelper::sigmoid<3>` with the
exact coefficient array `{ 0.5, 0.15012, 0.0, -0.0015930078125 }`. -/
def sigmoid3 (x : ℚ) : ℚ :=
  evaluatePolynomial x [0.5, 0.15012, 0.0, -0.0015930078125]

/-- Degree-5 sigmoid approximation `DataGeneratorHelper::sigmoid<5>` with the
exact coefficient array from the source. -/
def sigmoid5 (x : ℚ) : ℚ :=
  evaluatePolynomial x [0.5, 0.19131, 0.0, -0.0045963, 0.0, 0.0000412332000732421875]

/-- Degree-7 sigmoid approximation `DataGeneratorHelper::sigmoid<7>` with the
exact coefficient array from the source. -/
def sigmoid7 (x : ℚ) : ℚ :=
  evaluatePolynomial x [0.5, 0.21687, 0.0, -0.00819154296875, 0.0,
                        0.0001658331298828125, 0.0, -0.00000119561672210693359375]

/-! ## Descriptor matchers

Each benchmark translation unit defines a `BenchmarkDescriptionCategory`
whose `matchBenchmarkDescriptor` returns the human-readable workload name
when the descriptor and workload parameters are supported and the empty
string otherwise.  The `fetch...` helpers throw `std::invalid_argument` on a
malformed parameter vector; the matcher catches every exception and returns
the empty string, so the helpers are embedded as `Option`-valued functions
with `none` standing for a thrown exception. -/

namespace DotProduct

/-- Workload-parameter type array of the DotProduct category
(`WorkloadParameterCount = 1`, a single `UInt64`). -/
def WorkloadParameterCount : Nat := 1

/-- Translated from `DotProduct::BenchmarkDescriptionCategory::fetchVectorSize`:
requires `w_params.size() >= 1`; validates that parameter 0 is tagged
`UInt64` and is a positive integer; returns `w_params[0].u_param`.
Parameters beyond index 0 are not inspected. -/
def fetchVectorSize (w_params : List WorkloadParam) : Option Nat :=
  if w_params.length < WorkloadParameterCount then none
  else
    match w_params.head? with
    | some (WorkloadParam.u64 v) => if v = 0 then none else some v
    | _ => none

/-- Base workload name used by the DotProduct matcher.  Modelled from the
spec: the constant `BaseWorkloadName` lives in the benchmark header, which is
not among the sources; the spec's glossary names the workload
`DotProduct`. -/
def BaseWorkloadName : String := "DotProduct"

/-- Translated from `DotProduct::BenchmarkDescriptionCategory::matchBenchmarkDescriptor`:
on workload `DotProduct` it builds `BaseWorkloadName << " " << vector_size`,
and on a `fetchVectorSize` exception or any other workload it returns the
empty string. -/
def matchBenchmarkDescriptor (bench_desc : BenchmarkDescriptor)
    (w_params : List WorkloadParam) : String :=
  if bench_desc.workload = Workload.DotProduct then
    match fetchVectorSize w_params with
    | some vector_size => BaseWorkloadName ++ " " ++ toString vector_size
    | none => ""
  else ""

end DotProduct

namespace LogisticRegression

/-- Workload-parameter type array of the LogisticRegression category
(`WorkloadParameterCount = 1`, a single `UInt64`). -/
def WorkloadParameterCount : Nat := 1

/-- Translated from
`LogisticRegression::BenchmarkDescriptionCategory::fetchVectorSize`: same
shape as the DotProduct helper (arity at least 1, parameter 0 a positive
`UInt64`). -/
def fetchVectorSize (w_params : List WorkloadParam) : Option Nat :=
  if w_params.length < WorkloadParameterCount then none
  else
    match w_params.head? with
    | some (WorkloadParam.u64 v) => if v = 0 then none else some v
    | _ => none

/-- Base workload name used by the LogisticRegression matcher.  Modelled from
the spec: the constant `BaseWorkloadName` lives in the benchmark header,
which is not among the sources; the spec names the workload
`LogisticRegression`. -/
def BaseWorkloadName : String := "LogisticRegression"

/-- Variant tag appended by the `switch` in the LogisticRegression matcher:
`"PolyD3 "`, `"PolyD5 "`, `"PolyD7 "`, or nothing for the standard
sigmoid. -/
def variantTag : Workload → String
  | Workload.LogisticRegression_PolyD3 => "PolyD3 "
  | Workload.LogisticRegression_PolyD5 => "PolyD5 "
  | Workload.LogisticRegression_PolyD7 => "PolyD7 "
  | _ => ""

/-- Translated from
`LogisticRegression::BenchmarkDescriptionCategory::matchBenchmarkDescriptor`:
accepts the four logistic-regression workload enums and builds
`BaseWorkloadName << " " << variant << vector_size << " features"`. -/
def matchBenchmarkDescriptor (bench_desc : BenchmarkDescriptor)
    (w_params : List WorkloadParam) : String :=
  if bench_desc.workload = Workload.LogisticRegression
      ∨ bench_desc.workload = Workload.LogisticRegression_PolyD3
      ∨ bench_desc.workload = Workload.LogisticRegression_PolyD5
      ∨ bench_desc.workload = Workload.LogisticRegression_PolyD7 then
    match fetchVectorSize w_params with
    | some vector_size =>
        BaseWorkloadName ++ " " ++ variantTag bench_desc.workload
          ++ toString vector_size ++ " features"
    | none => ""
  else ""

end LogisticRegression

namespace MatrixMultiply

/-- Workload-parameter type array of the MatrixMultiply category
(`WorkloadParameterCount = 3`, three `UInt64` dimensions). -/
def WorkloadParameterCount : Nat := 3

/-- Translated from
`MatrixMultiply::BenchmarkDescriptionCategory::fetchMatrixSizes`: requires
`w_params.size() >= 3`; validates that parameters 0..2 are tagged `UInt64`
and positive; returns the operand dimensions
`((p0, p1), (p1, p2))`.  Parameters beyond index 2 are not inspected. -/
def fetchMatrixSizes (w_params : List WorkloadParam) :
    Option ((Nat × Nat) × (Nat × Nat)) :=
  if w_params.length < WorkloadParameterCount then none
  else
    match w_params.head?, w_params.tail.head?, w_params.tail.tail.head? with
    | some (WorkloadParam.u64 p0), some (WorkloadParam.u64 p1),
        some (WorkloadParam.u64 p2) =>
        if p0 = 0 ∨ p1 = 0 ∨ p2 = 0 then none
        else some ((p0, p1), (p1, p2))
    | _, _, _ => none

/-- Base workload name used by the MatrixMultiply matcher.  Modelled from the
spec: the constant `BaseWorkloadName` lives in the benchmark header, which is
not among the sources; the spec's scenario S2 abbreviates the workload
`MatMul`. -/
def BaseWorkloadName : String := "MatMul"

/-- Translated from
`MatrixMultiply::BenchmarkDescriptionCategory::matchBenchmarkDescriptor`:
on workload `MatrixMultiply` it builds
`BaseWorkloadName << " (" << r0 << "x" << c0 << ") x (" << r1 << "x" << c1 << ")"`. -/
def matchBenchmarkDescriptor (bench_desc : BenchmarkDescriptor)
    (w_params : List WorkloadParam) : String :=
  if bench_desc.workload = Workload.MatrixMultiply then
    match fetchMatrixSizes w_params with
    | some mat_dims =>
        BaseWorkloadName ++ " (" ++ toString mat_dims.1.1 ++ "x"
          ++ toString mat_dims.1.2 ++ ") x (" ++ toString mat_dims.2.1 ++ "x"
          ++ toString mat_dims.2.2 ++ ")"
    | none => ""
  else ""

end MatrixMultiply

/-! ## PartialBenchmarkDescription (hebench_ibenchmark.cpp) -/

/-- Translated from `PartialBenchmarkDescription::computeSampleSizes`:
for each parameter index, the sample size is the descriptor's offline
`data_count` entry when it is nonzero and `default_sample_size` otherwise;
the returned batch size is the running product accumulated in a
`std::uint64_t` (reduced modulo `2^64` at every multiplication).
`param_count` is the length of the `data_count` list. -/
def computeSampleSizes (data_count : List Nat) (default_sample_size : Nat) :
    List Nat × Nat :=
  let sample_sizes :=
    data_count.map (fun dc => if dc = 0 then default_sample_size else dc)
  (sample_sizes, sample_sizes.foldl (fun acc s => acc * s % 2 ^ 64) 1)

/-- Translated from `PartialBenchmarkDescription::getCipherParamPositions`:
the positions of the set bits of the 32-bit `cipher_param_mask`
(a `std::bitset<32>` scan).  The C++ function returns an unordered set; the
embedding returns the ascending list of positions. -/
def getCipherParamPositions (cipher_param_mask : Nat) : List Nat :=
  (List.range 32).filter (fun i => cipher_param_mask.testBit i)

/-- Translated from the cipher/plain segment construction in
`PartialBenchmarkDescription::describe` (the block writing `all_plain`,
`all_cipher`, or one `c`/`p` character per bit position up to the maximum
set position). -/
def cipherMaskSegment (cipher_param_mask : Nat) : String :=
  let cipher_param_pos := getCipherParamPositions cipher_param_mask
  if cipher_param_pos.isEmpty then "all_plain"
  else if 32 ≤ cipher_param_pos.length then "all_cipher"
  else
    let max_elem := cipher_param_pos.foldl max 0
    String.mk ((List.range (max_elem + 1)).map
      (fun i => if i ∈ cipher_param_pos then 'c' else 'p'))

/-! ## Directory-name sanitizer (hebench_utilities.cpp) -/

/-- ASCII `std::isalnum` in the default locale. -/
def isAlnumAscii (c : Char) : Bool :=
  (('0' ≤ c ∧ c ≤ '9') ∨ ('A' ≤ c ∧ c ≤ 'Z') ∨ ('a' ≤ c ∧ c ≤ 'z') : Prop)

/-- Phase 1 of `hebench::Utilities::convertToDirectoryName`: the
`std::transform` mapping every character that is not alphanumeric and not a
dot to an underscore (and, when requested, lowercasing the kept
characters). -/
def sanitizeMap (to_lowercase : Bool) (c : Char) : Char :=
  if isAlnumAscii c ∨ c = '.' then (if to_lowercase then c.toLower else c)
  else '_'

/-- Recursive core of the underscore-collapsing loop: a character is skipped
exactly when it is an underscore immediately following a kept underscore
(`prev` is the most recently kept character). -/
def collapseAux (prev : Char) : List Char → List Char
  | [] => []
  | c :: cs =>
      if prev = '_' ∧ c = '_' then collapseAux prev cs
      else c :: collapseAux c cs

/-- Phase 3 of `hebench::Utilities::convertToDirectoryName`: the `while` loop
that copies the string, keeping the first underscore of every contiguous
underscore run and skipping the rest.  The loop's position bookkeeping
(`find_first_of` / `find_first_not_of`) becomes recursion over the character
list: every character is kept except an underscore that immediately follows
an underscore, which is exactly the loop's effect of emitting each
underscore run as a single underscore. -/
def collapseUnderscores : List Char → List Char
  | [] => []
  | c :: cs => c :: collapseAux c cs

/-- Translated from `hebench::Utilities::convertToDirectoryName` on character
lists: map non-alnum/non-dot characters to underscores, erase leading and
trailing underscores (`find_first_not_of` / `find_last_not_of`), then
collapse contiguous underscore repetitions. -/
def convertToDirectoryNameChars (s : List Char) (to_lowercase : Bool) :
    List Char :=
  let mapped := s.map (sanitizeMap to_lowercase)
  let stripped :=
    ((mapped.dropWhile (fun d => d = '_')).reverse.dropWhile
      (fun d => d = '_')).reverse
  collapseUnderscores stripped

/-- The sanitizer as invoked by `PartialBenchmarkDescription::describe`
(one-argument form `convertToDirectoryName(s)`).  Modelled from the spec: the
default value of `to_lowercase` lives in the header, which is not among the
sources; scenario S2 shows the canonical path preserving the capitalization
`Float32`, so the default is `false`. -/
def convertToDirectoryName (s : String) : String :=
  String.mk (convertToDirectoryNameChars s.data false)

/-! ## DotProduct data generator (hebench_dotproduct.cpp)

`DataGeneratorHelper::vectorDotProduct<T>` is
`std::inner_product(a, a + elem_count, b, T())`: a left fold accumulating
`acc + a_i * b_i` in `T`.  For the integer instantiations every arithmetic
operation is reduced to the 32- or 64-bit two's-complement range; for the
floating-point instantiations the fold is embedded over exact rationals. -/

/-- Reduction of an integer into the `w`-bit two's-complement range
`[-2^(w-1), 2^(w-1))`. -/
def wrap (w : Nat) (x : Int) : Int :=
  (x + 2 ^ (w - 1)) % (2 ^ w : Int) - 2 ^ (w - 1)

/-- Integer instantiation of `DataGeneratorHelper::vectorDotProduct<T>`
(`T = std::int32_t` for `w = 32`, `T = std::int64_t` for `w = 64`), with
every intermediate product and sum wrapped to the `w`-bit
two's-complement range. -/
def vectorDotProductInt (w : Nat) (a b : List Int) : Int :=
  (a.zip b).foldl (fun acc p => wrap w (acc + wrap w (p.1 * p.2))) 0

/-- Floating-point instantiation of
`DataGeneratorHelper::vectorDotProduct<T>` (`T = float` or `T = double`),
embedded over exact rationals. -/
def vectorDotProductQ (a b : List ℚ) : ℚ :=
  (a.zip b).foldl (fun acc p => acc + p.1 * p.2) 0

/-- Modelled from the spec: `PartialDataLoader::getResultIndex` is not among
the sources; per spec section 4.2 the flat result index of a multi-index is
`Σ (i_k · ∏_{j<k} batch[j])`, which for the two DotProduct input parameters
with batch sizes `(batch_a, batch_b)` is `a_i + b_i * batch_a`. -/
def resultIndex (batch_a a_i b_i : Nat) : Nat :=
  a_i + b_i * batch_a

/-- Result-batch construction from `DotProduct::DataGenerator::init`: the
output data pack holds `batch_a * batch_b` buffers, and the doubly nested
loop writes, for every pair of input sample indices `(a_i, b_i)`, the dot
product of sample `a_i` of parameter A and sample `b_i` of parameter B at
flat position `getResultIndex({a_i, b_i})`. -/
def dotProductExpectedOutputs (A B : List (List ℚ)) : List ℚ :=
  let batch_a := A.length
  let batch_b := B.length
  let pairs := (List.range batch_a).flatMap
    (fun a_i => (List.range batch_b).map (fun b_i => (a_i, b_i)))
  pairs.foldl
    (fun out p =>
      out.set (resultIndex batch_a p.1 p.2)
        (vectorDotProductQ (A.getD p.1 []) (B.getD p.2 [])))
    (List.replicate (batch_a * batch_b) 0)

/-! ## Global random generator (hebench_utilities.cpp)

`hebench::Utilities::RandomGenerator` holds the single process-wide
`std::mt19937 m_rand`; `setRandomSeed(seed)` calls `m_rand.seed(seed)`.
The `std::mt19937` engine is embedded explicitly: 624 words of 32-bit
state, the standard seeding recurrence, block twist, and tempering. -/

/-- State of the `std::mt19937` engine: the 624-word state array and the
extraction index. -/
structure MTState : Type where
  state : List Nat
  index : Nat
  deriving DecidableEq, Repr

/-- Seeding recurrence of `std::mt19937`:
`x_i = (1812433253 * (x_{i-1} xor (x_{i-1} >> 30)) + i) mod 2^32`,
producing `fuel` further words after `prev` (which has index `i - 1`). -/
def mtSeedFrom (prev i fuel : Nat) : List Nat :=
  match fuel with
  | 0 => []
  | fuel' + 1 =>
      let x := (1812433253 * (prev ^^^ (prev >>> 30)) + i) % 2 ^ 32
      x :: mtSeedFrom x (i + 1) fuel'

/-- Translated from `RandomGenerator::setRandomSeed(std::uint64_t)`:
`m_rand.seed(seed)` initializes word 0 to `seed mod 2^32`, fills the
remaining 623 words by the seeding recurrence, and sets the extraction
index to 624 so that the first extraction twists a fresh block. -/
def setRandomSeed (seed : Nat) : MTState :=
  let s0 := seed % 2 ^ 32
  ⟨s0 :: mtSeedFrom s0 1 623, 624⟩

/-- One block twist of `std::mt19937`, updating the 624 state words in
place in ascending order. -/
def mtTwist (st : List Nat) : List Nat :=
  (List.range 624).foldl
    (fun s i =>
      let y := (s.getD i 0 &&& 0x80000000) + (s.getD ((i + 1) % 624) 0 &&& 0x7fffffff)
      let v := s.getD ((i + 397) % 624) 0 ^^^ (y >>> 1)
        ^^^ (if y % 2 = 1 then 0x9908b0df else 0)
      s.set i v)
    st

/-- Tempering transform of `std::mt19937`. -/
def mtTemper (x : Nat) : Nat :=
  let y1 := x ^^^ (x >>> 11)
  let y2 := y1 ^^^ ((y1 <<< 7) &&& 0x9d2c5680)
  let y3 := y2 ^^^ ((y2 <<< 15) &&& 0xefc60000)
  (y3 ^^^ (y3 >>> 18)) % 2 ^ 32

/-- One extraction from the engine: twist a fresh block when the index has
reached 624, then temper the word at the current index. -/
def mtNext (g : MTState) : Nat × MTState :=
  if 624 ≤ g.index then
    let s := mtTwist g.state
    (mtTemper (s.getD 0 0), ⟨s, 1⟩)
  else
    (mtTemper (g.state.getD g.index 0), ⟨g.state, g.index + 1⟩)

/-- Modelled from the spec:
`DataGeneratorHelper::generateRandomVectorN` (datagen_helper translation
unit) is not among the sources.  Per the spec, each generated buffer is a
vector of values drawn from a truncated normal distribution through the
single global seeded PRNG, deterministically given the seed; the embedding
keeps the raw 32-bit engine draws (one per element, threading the engine
state), leaving the distribution transform out since no settled claim
depends on the distribution shape. -/
def generateRandomVectorN (g : MTState) : Nat → List Nat × MTState
  | 0 => ([], g)
  | n + 1 =>
      let (x, g') := mtNext g
      let (xs, g'') := generateRandomVectorN g' n
      (x :: xs, g'')

/-- The inner loop of `DotProduct::DataGenerator::init` generating one data
pack: `batch` sample buffers of `count` elements each, drawn sequentially
from the global engine. -/
def genSamples (g : MTState) (count : Nat) : Nat → List (List Nat) × MTState
  | 0 => ([], g)
  | b + 1 =>
      let (v, g') := generateRandomVectorN g count
      let (vs, g'') := genSamples g' count b
      (v :: vs, g'')

/-- One full data-generation run of `DotProduct::DataGenerator::init` for a
given seed: seed the global engine (`RandomGenerator::setRandomSeed`),
generate the `batch_a` samples of parameter A then the `batch_b` samples of
parameter B from the shared engine state, and compute every expected output
by `DataGeneratorHelper::vectorDotProduct` (the samples interpreted in the
declared floating-point data type, embedded as exact rationals). -/
def dotProductDataGenRun (seed vector_size batch_a batch_b : Nat) :
    List (List Nat) × List (List Nat) × List ℚ :=
  let g0 := setRandomSeed seed
  let (asamples, g1) := genSamples g0 vector_size batch_a
  let (bsamples, _) := genSamples g1 vector_size batch_b
  (asamples, bsamples,
    dotProductExpectedOutputs
      (asamples.map (fun v => v.map (fun n => (n : ℚ))))
      (bsamples.map (fun v => v.map (fun n => (n : ℚ)))))

/-! ## Theorems -/

/-- C1 (counterexample).  The claim asserts that evaluating the degree-3
sigmoid polynomial at `x = 2` yields
`0.5 + 0.15012 * 2 + (-0.0015930078125) * 8 = 0.78749125`; the code does
yield the value of that expression, but the expression's value is
`0.7874959375`, not `0.78749125`, so the claimed result at `x = 2` is
false. -/
theorem sigmoid3_at_two_spec_value_refuted :
    sigmoid3 2 = 0.5 + 0.15012 * 2 + (-0.0015930078125) * 8
    ∧ sigmoid3 2 ≠ 0.78749125 := by
  constructor
  · simp only [sigmoid3, evaluatePolynomial]
    norm_num
  · simp only [sigmoid3, evaluatePolynomial]
    norm_num

/-- C1 (amended).  For LogisticRegression with polynomial degree 3, the
ground-truth sigmoid is the polynomial with ascending-power coefficients
`[0.5, 0.15012, 0, -0.0015930078125]` evaluated by Horner's rule; evaluating
it at `x = 0` yields exactly `0.5`, and at `x = 2` it yields exactly
`0.5 + 0.15012 * 2 + (-0.0015930078125) * 8 = 0.7874959375`. -/
theorem sigmoid3_horner_values (x : ℚ) :
    sigmoid3 x = 0.5 + 0.15012 * x + 0 * x ^ 2 + (-0.0015930078125) * x ^ 3
    ∧ sigmoid3 0 = 0.5
    ∧ sigmoid3 2 = 0.7874959375 := by
  refine ⟨?_, ?_, ?_⟩ <;> simp only [sigmoid3, evaluatePolynomial] <;> norm_num
  ring

/-- Helper: a left fold of wrapping multiplications computes the product
reduced modulo `m`. -/
theorem foldl_mul_mod (m : Nat) (l : List Nat) :
    ∀ a : Nat, l.foldl (fun acc s => acc * s % m) (a % m) = a * l.prod % m := by
  induction l with
  | nil => intro a; simp
  | cons x xs ih =>
      intro a
      simp only [List.foldl_cons, List.prod_cons]
      rw [Nat.mod_mul_mod, ih (a * x), Nat.mul_assoc]

/-- C4 (counterexample).  The claim asserts that the returned result batch
size equals the product of the computed per-parameter sample counts; the
running product is accumulated in a `std::uint64_t`, so with two sample
counts of `2^32` the code returns `0` while the product is `2^64`. -/
theorem computeSampleSizes_product_refuted :
    (computeSampleSizes [2 ^ 32, 2 ^ 32] 100).2
      ≠ ((computeSampleSizes [2 ^ 32, 2 ^ 32] 100).1).prod := by decide

/-- C4 (amended).  For an Offline-category benchmark, the computed sample
count of every parameter `i` equals `data_count[i]` when that entry is
nonzero and `default_sample_size` otherwise, and the returned result batch
size equals the product of the computed sample counts reduced modulo `2^64`
(the accumulator is a `std::uint64_t`). -/
theorem computeSampleSizes_spec (data_count : List Nat)
    (default_sample_size : Nat) :
    (computeSampleSizes data_count default_sample_size).1
      = data_count.map
          (fun dc => if dc = 0 then default_sample_size else dc)
    ∧ (computeSampleSizes data_count default_sample_size).2
      = (computeSampleSizes data_count default_sample_size).1.prod % 2 ^ 64 := by
  refine ⟨rfl, ?_⟩
  have h1 : (1 : Nat) = 1 % 2 ^ 64 := by norm_num
  simp only [computeSampleSizes]
  rw [h1, foldl_mul_mod, Nat.one_mul]

/-- Helper: a string ending in a space followed by the decimal rendering of
a natural number is never empty. -/
theorem append_space_nat_ne_empty (s : String) (v : Nat) :
    s ++ " " ++ toString v ≠ "" := by
  intro he
  have hd : (s ++ " " ++ toString v).data = "".data := by rw [he]
  simp [String.data_append] at hd

/-- C3 (counterexample).  The claim asserts that a matcher returns a
non-empty name only when the workload-param vector has exactly the required
arity; the DotProduct matcher requires one parameter, yet it accepts a
two-entry vector (validating only the leading entry) and returns a non-empty
name. -/
theorem dotProduct_match_exact_arity_refuted :
    DotProduct.matchBenchmarkDescriptor
        ⟨Workload.DotProduct, DataType.Float64, 0, []⟩
        [WorkloadParam.u64 4, WorkloadParam.u64 7] = "DotProduct 4"
    ∧ [WorkloadParam.u64 4, WorkloadParam.u64 7].length
        ≠ DotProduct.WorkloadParameterCount := by decide

/-- C3 (amended).  The registered DotProduct workload matcher returns a
non-empty human-readable workload name if and only if the descriptor's
workload enum is `DotProduct`, the workload-param vector has at least the
required arity with a leading `UInt64`-tagged entry, and the domain check
passes (the leading size parameter is a positive integer); entries beyond
the required arity are ignored.  In every other case it returns the empty
string. -/
theorem dotProduct_match_spec (bench_desc : BenchmarkDescriptor)
    (w_params : List WorkloadParam) :
    DotProduct.matchBenchmarkDescriptor bench_desc w_params ≠ ""
      ↔ bench_desc.workload = Workload.DotProduct
        ∧ ∃ v rest, w_params = WorkloadParam.u64 v :: rest ∧ 0 < v := by
  by_cases hw : bench_desc.workload = Workload.DotProduct
  · cases w_params with
    | nil => simp [DotProduct.matchBenchmarkDescriptor, DotProduct.fetchVectorSize,
        DotProduct.WorkloadParameterCount, hw]
    | cons p rest =>
        cases p with
        | u64 v =>
            by_cases hv : v = 0
            · subst hv
              simp [DotProduct.matchBenchmarkDescriptor, DotProduct.fetchVectorSize,
                DotProduct.WorkloadParameterCount, hw]
            · simp [DotProduct.matchBenchmarkDescriptor, DotProduct.fetchVectorSize,
                DotProduct.WorkloadParameterCount, hw, hv, append_space_nat_ne_empty,
                Nat.pos_of_ne_zero hv]
        | i64 v => simp [DotProduct.matchBenchmarkDescriptor, DotProduct.fetchVectorSize,
            DotProduct.WorkloadParameterCount, hw]
        | f64 v => simp [DotProduct.matchBenchmarkDescriptor, DotProduct.fetchVectorSize,
            DotProduct.WorkloadParameterCount, hw]
  · simp [DotProduct.matchBenchmarkDescriptor, hw]

/-- Helper: an append whose right operand is non-empty is non-empty. -/
theorem append_ne_empty_right (s t : String) (h : t.data ≠ []) : s ++ t ≠ "" := by
  intro he
  have hd : (s ++ t).data = "".data := by rw [he]
  simp [String.data_append] at hd
  exact h hd.2

/-- C10.  For every workload-param vector holding more entries than the
workload's declared parameter count, with well-typed positive leading
entries, the DotProduct, LogisticRegression and MatrixMultiply matchers
still accept and return a non-empty workload name, silently ignoring the
extra entries; a vector with fewer entries than required is rejected with
the empty string. -/
theorem matchers_arity_spec (d_dp d_lr d_mm : BenchmarkDescriptor)
    (v p0 p1 p2 : Nat) (extras short_dp short_mm : List WorkloadParam)
    (hdp : d_dp.workload = Workload.DotProduct)
    (hlr : d_lr.workload = Workload.LogisticRegression
        ∨ d_lr.workload = Workload.LogisticRegression_PolyD3
        ∨ d_lr.workload = Workload.LogisticRegression_PolyD5
        ∨ d_lr.workload = Workload.LogisticRegression_PolyD7)
    (hmm : d_mm.workload = Workload.MatrixMultiply)
    (hv : 0 < v) (hp0 : 0 < p0) (hp1 : 0 < p1) (hp2 : 0 < p2)
    (hsdp : short_dp.length < DotProduct.WorkloadParameterCount)
    (hsmm : short_mm.length < MatrixMultiply.WorkloadParameterCount) :
    DotProduct.matchBenchmarkDescriptor d_dp (WorkloadParam.u64 v :: extras) ≠ ""
    ∧ LogisticRegression.matchBenchmarkDescriptor d_lr
        (WorkloadParam.u64 v :: extras) ≠ ""
    ∧ MatrixMultiply.matchBenchmarkDescriptor d_mm
        (WorkloadParam.u64 p0 :: WorkloadParam.u64 p1 :: WorkloadParam.u64 p2
          :: extras) ≠ ""
    ∧ DotProduct.matchBenchmarkDescriptor d_dp short_dp = ""
    ∧ LogisticRegression.matchBenchmarkDescriptor d_lr short_dp = ""
    ∧ MatrixMultiply.matchBenchmarkDescriptor d_mm short_mm = "" := by
  have hv' : v ≠ 0 := Nat.pos_iff_ne_zero.mp hv
  have hp0' : p0 ≠ 0 := Nat.pos_iff_ne_zero.mp hp0
  have hp1' : p1 ≠ 0 := Nat.pos_iff_ne_zero.mp hp1
  have hp2' : p2 ≠ 0 := Nat.pos_iff_ne_zero.mp hp2
  have hnil : short_dp = [] := List.length_eq_zero.mp
    (Nat.lt_one_iff.mp (by simpa [DotProduct.WorkloadParameterCount] using hsdp))
  have hlen3 : ¬(extras.length + 1 + 1 + 1 < 3) := by omega
  refine ⟨?_, ?_, ?_, ?_, ?_, ?_⟩
  · simp [DotProduct.matchBenchmarkDescriptor, DotProduct.fetchVectorSize,
      DotProduct.WorkloadParameterCount, hdp, hv', append_space_nat_ne_empty]
  · rcases hlr with h | h | h | h <;>
      simp [LogisticRegression.matchBenchmarkDescriptor,
        LogisticRegression.fetchVectorSize,
        LogisticRegression.WorkloadParameterCount, h, hv',
        LogisticRegression.variantTag, append_ne_empty_right]
  · simp only [MatrixMultiply.matchBenchmarkDescriptor,
      MatrixMultiply.fetchMatrixSizes, MatrixMultiply.WorkloadParameterCount,
      hmm, if_pos rfl, List.length_cons, List.head?_cons, List.tail_cons]
    rw [if_neg hlen3]
    simp only [hp0', hp1', hp2', or_self, false_or, if_neg]
    exact append_ne_empty_right _ ")" (by decide)
  · subst hnil
    simp [DotProduct.matchBenchmarkDescriptor, DotProduct.fetchVectorSize,
      DotProduct.WorkloadParameterCount, hdp]
  · subst hnil
    rcases hlr with h | h | h | h <;>
      simp [LogisticRegression.matchBenchmarkDescriptor,
        LogisticRegression.fetchVectorSize,
        LogisticRegression.WorkloadParameterCount, h]
  · have h3 : short_mm.length < 3 := by
      simpa [MatrixMultiply.WorkloadParameterCount] using hsmm
    simp [MatrixMultiply.matchBenchmarkDescriptor, MatrixMultiply.fetchMatrixSizes,
      MatrixMultiply.WorkloadParameterCount, hmm, h3]

/-- C10 (witness): the arity theorem instantiated at concrete descriptors
and parameter vectors. -/
theorem matchers_arity_spec_witness :
    DotProduct.matchBenchmarkDescriptor
        ⟨Workload.DotProduct, DataType.Float64, 0, []⟩
        [WorkloadParam.u64 2, WorkloadParam.u64 7] ≠ ""
    ∧ LogisticRegression.matchBenchmarkDescriptor
        ⟨Workload.LogisticRegression_PolyD3, DataType.Float64, 0, []⟩
        [WorkloadParam.u64 2, WorkloadParam.u64 7] ≠ ""
    ∧ MatrixMultiply.matchBenchmarkDescriptor
        ⟨Workload.MatrixMultiply, DataType.Float64, 0, []⟩
        [WorkloadParam.u64 2, WorkloadParam.u64 3, WorkloadParam.u64 4,
          WorkloadParam.u64 7] ≠ ""
    ∧ DotProduct.matchBenchmarkDescriptor
        ⟨Workload.DotProduct, DataType.Float64, 0, []⟩ [] = ""
    ∧ LogisticRegression.matchBenchmarkDescriptor
        ⟨Workload.LogisticRegression_PolyD3, DataType.Float64, 0, []⟩ [] = ""
    ∧ MatrixMultiply.matchBenchmarkDescriptor
        ⟨Workload.MatrixMultiply, DataType.Float64, 0, []⟩
        [WorkloadParam.u64 2, WorkloadParam.u64 3] = "" :=
  matchers_arity_spec
    ⟨Workload.DotProduct, DataType.Float64, 0, []⟩
    ⟨Workload.LogisticRegression_PolyD3, DataType.Float64, 0, []⟩
    ⟨Workload.MatrixMultiply, DataType.Float64, 0, []⟩
    2 2 3 4 [WorkloadParam.u64 7] [] [WorkloadParam.u64 2, WorkloadParam.u64 3]
    (by decide) (by decide) (by decide) (by decide) (by decide) (by decide)
    (by decide) (by decide) (by decide)


/-- Helper: membership in `getCipherParamPositions` is exactly having a set
bit at a position below 32. -/
theorem mem_getCipherParamPositions (mask i : Nat) :
    i ∈ getCipherParamPositions mask ↔ mask.testBit i ∧ i < 32 := by
  simp [getCipherParamPositions, List.mem_filter, List.mem_range, and_comm]

/-- Helper: the accumulator bounds a `foldl max` from below. -/
theorem le_foldl_max (l : List Nat) : ∀ a : Nat, a ≤ l.foldl max a := by
  induction l with
  | nil => intro a; simp
  | cons x xs ih => intro a; exact le_trans (le_max_left a x) (ih (max a x))

/-- Helper: every member bounds a `foldl max` from below. -/
theorem mem_le_foldl_max (l : List Nat) (x : Nat) (hx : x ∈ l) :
    ∀ a : Nat, x ≤ l.foldl max a := by
  induction l with
  | nil => cases hx
  | cons y ys ih =>
      intro a
      rcases List.mem_cons.mp hx with h | h
      · subst h; exact le_trans (le_max_right a x) (le_foldl_max ys (max a x))
      · exact ih h (max a y)

/-- Helper: a `foldl max` is bounded by any common upper bound of the
accumulator and the members. -/
theorem foldl_max_le (l : List Nat) (b : Nat) (hm : ∀ x ∈ l, x ≤ b) :
    ∀ a : Nat, a ≤ b → l.foldl max a ≤ b := by
  induction l with
  | nil => intro a ha; simpa using ha
  | cons y ys ih =>
      intro a ha
      exact ih (fun x hx => hm x (List.mem_cons_of_mem _ hx)) (max a y)
        (max_le ha (hm y (List.mem_cons_self _ _)))

/-- C5.  For every 32-bit `cipher_param_mask`, the cipher-mask segment of
the canonical path is `"all_plain"` when the mask is 0, `"all_cipher"` when
all 32 bits are set, and otherwise a string of characters over `{c, p}` with
one character per bit position from 0 up to and including the highest set
bit `H`, with `c` exactly at the set positions. -/
theorem cipherMaskSegment_spec (mask H : Nat) (hmask : mask < 2 ^ 32) :
    (mask = 0 → cipherMaskSegment mask = "all_plain")
    ∧ (mask = 2 ^ 32 - 1 → cipherMaskSegment mask = "all_cipher")
    ∧ (mask ≠ 0 → mask ≠ 2 ^ 32 - 1 → mask.testBit H = true →
        (∀ j, H < j → mask.testBit j = false) →
        (cipherMaskSegment mask).data.length = H + 1
        ∧ ∀ i, i ≤ H →
            (cipherMaskSegment mask).data.getD i 'x'
              = if mask.testBit i then 'c' else 'p') := by
  refine ⟨?_, ?_, ?_⟩
  · rintro rfl; decide
  · rintro rfl; decide
  · intro hne0 hne1 hH hHmax
    have hH32 : H < 32 := by
      by_contra hcon
      push_neg at hcon
      have : mask < 2 ^ H := lt_of_lt_of_le hmask (Nat.pow_le_pow_right (by norm_num) hcon)
      rw [Nat.testBit_lt_two_pow this] at hH
      exact Bool.false_ne_true hH
    have hmem : H ∈ getCipherParamPositions mask :=
      (mem_getCipherParamPositions mask H).mpr ⟨hH, hH32⟩
    have hnonempty : (getCipherParamPositions mask).isEmpty = false := by
      rcases hp : getCipherParamPositions mask with _ | ⟨c, cs⟩
      · rw [hp] at hmem; cases hmem
      · rfl
    have hlenlt : (getCipherParamPositions mask).length < 32 := by
      by_contra hcon
      push_neg at hcon
      have hsub : List.Sublist (getCipherParamPositions mask) (List.range 32) :=
        List.filter_sublist _
      have hle : (getCipherParamPositions mask).length ≤ 32 := by
        simpa using hsub.length_le
      have hlen : (getCipherParamPositions mask).length = (List.range 32).length := by
        simp [le_antisymm hle hcon]
      have heq : getCipherParamPositions mask = List.range 32 :=
        (List.Sublist.length_eq hsub).mp hlen
      apply hne1
      apply Nat.eq_of_testBit_eq
      intro i
      by_cases hi : i < 32
      · have : i ∈ getCipherParamPositions mask := by
          rw [heq]; exact List.mem_range.mpr hi
        have hbit := ((mem_getCipherParamPositions mask i).mp this).1
        rw [hbit, Nat.testBit_two_pow_sub_one]
        simp [hi]
      · push_neg at hi
        have h1 : mask.testBit i = false :=
          Nat.testBit_lt_two_pow (lt_of_lt_of_le hmask (Nat.pow_le_pow_right (by norm_num) hi))
        have h2 : (2 ^ 32 - 1).testBit i = false := by
          rw [Nat.testBit_two_pow_sub_one]
          simp [Nat.not_lt.mpr hi]
        rw [h1, h2]
    have hmax : (getCipherParamPositions mask).foldl max 0 = H := by
      apply le_antisymm
      · apply foldl_max_le _ H _ 0 (Nat.zero_le H)
        intro x hx
        by_contra hcon
        push_neg at hcon
        have hbit := ((mem_getCipherParamPositions mask x).mp hx).1
        rw [hHmax x hcon] at hbit
        exact Bool.false_ne_true hbit
      · exact mem_le_foldl_max _ H hmem 0
    have hseg : cipherMaskSegment mask
        = String.mk ((List.range (H + 1)).map
            (fun i => if i ∈ getCipherParamPositions mask then 'c' else 'p')) := by
      rw [cipherMaskSegment]
      simp only [hnonempty, Bool.false_eq_true, if_false, Nat.not_le.mpr hlenlt, hmax,
        if_neg (Nat.not_le.mpr hlenlt)]
    constructor
    · rw [hseg]
      simp
    · intro i hi
      rw [hseg]
      rw [List.getD_eq_getElem?_getD]
      rw [List.getElem?_map]
      rw [List.getElem?_range (by omega : i < H + 1)]
      simp only [Option.map_some', Option.getD_some]
      by_cases hbit : mask.testBit i
      · have : i ∈ getCipherParamPositions mask :=
          (mem_getCipherParamPositions mask i).mpr ⟨hbit, by omega⟩
        simp [this, hbit]
      · have : i ∉ getCipherParamPositions mask := by
          intro hmem2
          exact hbit ((mem_getCipherParamPositions mask i).mp hmem2).1
        simp [this, hbit]

/-- C5 (witness): the segment theorem instantiated at mask 5 (bits 0 and 2
set, highest set bit 2, segment `"cpc"` of length 3). -/
theorem cipherMaskSegment_spec_witness :
    (cipherMaskSegment 5).data.length = 2 + 1 :=
  ((cipherMaskSegment_spec 5 2 (by decide)).2.2 (by decide) (by decide)
    (by decide)
    (fun j hj => Nat.testBit_lt_two_pow
      (lt_of_lt_of_le (by decide) (Nat.pow_le_pow_right (by decide) hj)))).1

/-- Helper: the accumulate fold of `std::inner_product` over rationals is
the sum of componentwise products. -/
theorem foldl_add_mul_sum (l : List (ℚ × ℚ)) :
    ∀ a : ℚ, l.foldl (fun acc p => acc + p.1 * p.2) a
      = a + (l.map (fun p => p.1 * p.2)).sum := by
  induction l with
  | nil => intro a; simp
  | cons x xs ih =>
      intro a
      simp only [List.foldl_cons, List.map_cons, List.sum_cons, ih (a + x.1 * x.2)]
      ring
/-- Helper: wrapping preserves the residue modulo `2^w`. -/
theorem wrap_emod (w : Nat) (x : Int) : wrap w x % 2 ^ w = x % 2 ^ w := by
  unfold wrap
  rw [Int.sub_emod, Int.emod_emod_of_dvd _ dvd_rfl, ← Int.sub_emod]
  simp
/-- Helper: wrapping depends only on the residue modulo `2^w`. -/
theorem wrap_congr (w : Nat) (x y : Int) (h : x % 2 ^ w = y % 2 ^ w) :
    wrap w x = wrap w y := by
  unfold wrap
  rw [Int.add_emod, h, ← Int.add_emod]
/-- Helper: zero wraps to zero for a positive width. -/
theorem wrap_zero (w : Nat) (hw : 0 < w) : wrap w 0 = 0 := by
  unfold wrap
  rw [Int.zero_add, Int.emod_eq_of_lt (by positivity)
    (by exact_mod_cast pow_lt_pow_right₀ (by norm_num) (by omega : w - 1 < w))]
  simp
/-- Helper: the wrapped accumulate fold equals the exact sum wrapped
once. -/
theorem foldl_wrap_dot (w : Nat) (l : List (Int × Int)) :
    ∀ s : Int, l.foldl (fun acc p => wrap w (acc + wrap w (p.1 * p.2))) (wrap w s)
      = wrap w (s + (l.map (fun p => p.1 * p.2)).sum) := by
  induction l with
  | nil => intro s; simp
  | cons x xs ih =>
      intro s
      simp only [List.foldl_cons, List.map_cons, List.sum_cons]
      have hstep : wrap w (wrap w s + wrap w (x.1 * x.2)) = wrap w (s + x.1 * x.2) := by
        apply wrap_congr
        rw [Int.add_emod, wrap_emod, wrap_emod, ← Int.add_emod]
      rw [hstep, ih (s + x.1 * x.2), add_assoc]
/-- Helper: the integer dot-product kernel equals the exact inner product
reduced once to the `w`-bit two's-complement range. -/
theorem vectorDotProductInt_eq_wrap_sum (w : Nat) (hw : 0 < w) (a b : List Int) :
    vectorDotProductInt w a b
      = wrap w (((a.zip b).map (fun p => p.1 * p.2)).sum) := by
  unfold vectorDotProductInt
  rw [← wrap_zero w hw, foldl_wrap_dot, Int.zero_add]
/-- Helper: a fold of `List.set` writes preserves the length. -/
theorem length_foldl_set {β : Type} (ps : List β) (f : β → Nat) (g : β → ℚ) :
    ∀ init : List ℚ,
      (ps.foldl (fun out q => out.set (f q) (g q)) init).length = init.length := by
  induction ps with
  | nil => intro init; rfl
  | cons x xs ih =>
      intro init
      simp only [List.foldl_cons]
      rw [ih, List.length_set]
/-- Helper: a fold of `List.set` writes leaves untouched positions
unchanged. -/
theorem foldl_set_getD_not_mem {β : Type} (ps : List β) (f : β → Nat) (g : β → ℚ)
    (i : Nat) (h : ∀ q ∈ ps, f q ≠ i) :
    ∀ init : List ℚ,
      (ps.foldl (fun out q => out.set (f q) (g q)) init).getD i 0
        = init.getD i 0 := by
  induction ps with
  | nil => intro init; rfl
  | cons x xs ih =>
      intro init
      simp only [List.foldl_cons]
      rw [ih (fun q hq => h q (List.mem_cons_of_mem _ hq))]
      rw [List.getD_eq_getElem?_getD, List.getD_eq_getElem?_getD]
      rw [List.getElem?_set_ne (h x (List.mem_cons_self _ _))]
/-- Helper: after a fold of `List.set` writes at pairwise distinct
positions, each written position holds its value. -/
theorem foldl_set_getD_mem {β : Type} (ps : List β) (f : β → Nat) (g : β → ℚ)
    (hnodup : (ps.map f).Nodup) (q : β) (hq : q ∈ ps) :
    ∀ init : List ℚ, f q < init.length →
      (ps.foldl (fun out q' => out.set (f q') (g q')) init).getD (f q) 0 = g q := by
  induction ps with
  | nil => cases hq
  | cons x xs ih =>
      intro init hlt
      simp only [List.map_cons, List.nodup_cons] at hnodup
      simp only [List.foldl_cons]
      rcases List.mem_cons.mp hq with h | h
      · subst h
        rw [foldl_set_getD_not_mem _ f g _
          (fun q' hq' hEq => hnodup.1 (by rw [← hEq]; exact List.mem_map_of_mem f hq'))]
        rw [List.getD_eq_getElem?_getD, List.getElem?_set_self (by simpa using hlt)]
        rfl
      · exact ih hnodup.2 h (init.set (f x) (g x)) (by simpa using hlt)
/-- Helper: the flat result index lies inside the result batch. -/
theorem resultIndex_lt (ba bb a_i b_i : Nat) (ha : a_i < ba) (hb : b_i < bb) :
    resultIndex ba a_i b_i < ba * bb := by
  unfold resultIndex
  calc a_i + b_i * ba < ba + b_i * ba := by omega
    _ = (b_i + 1) * ba := by ring
    _ ≤ bb * ba := Nat.mul_le_mul_right _ hb
    _ = ba * bb := Nat.mul_comm _ _
/-- Helper: the flat result indices of all input-sample pairs are pairwise
distinct. -/
theorem resultIndex_map_nodup (ba bb : Nat) :
    (((List.range ba).flatMap
        (fun a_i => (List.range bb).map (fun b_i => (a_i, b_i)))).map
      (fun p => resultIndex ba p.1 p.2)).Nodup := by
  rw [List.map_flatMap]
  rw [List.nodup_flatMap]
  constructor
  · intro a_i ha
    rw [List.map_map]
    apply List.Nodup.map
    · intro x y hxy
      simp only [Function.comp, resultIndex] at hxy
      have hba : 0 < ba := by
        have := List.mem_range.mp ha
        omega
      have hxy' : x * ba = y * ba := by omega
      exact Nat.eq_of_mul_eq_mul_right hba hxy'
    · exact List.nodup_range _
  · rw [List.pairwise_iff_getElem]
    intro i j hi hj hij
    simp only [List.length_range] at hi hj
    simp only [List.getElem_range]
    intro x hxi hxj
    simp only [List.map_map, List.mem_map, List.mem_range, Function.comp,
      resultIndex] at hxi hxj
    rcases hxi with ⟨b1, hb1, he1⟩
    rcases hxj with ⟨b2, hb2, he2⟩
    have : i + b1 * ba = j + b2 * ba := by rw [he1, he2]
    have hmod : (i + b1 * ba) % ba = (j + b2 * ba) % ba := by rw [this]
    rw [Nat.add_mul_mod_self_right, Nat.add_mul_mod_self_right,
      Nat.mod_eq_of_lt hi, Nat.mod_eq_of_lt hj] at hmod
    omega
/-- C6.  For every pair of vectors and every declared data type, the
DotProduct ground truth equals the standard inner product accumulated in
that type (exact rationals for the floating-point types; `w`-bit
two's-complement wrap-around, stated as the exact inner product reduced
once, for the integer types); in particular for f64 inputs
`a = [1,2,3,4]` and `b = [5,6,7,8]` the expected result is exactly 70, and
with input batch sizes `(batch_a, batch_b)` the result batch holds
`batch_a * batch_b` expected values, one per input-sample pair at its flat
result index. -/
theorem dotProduct_groundTruth_spec (w : Nat) (ia ib : List Int) (a b : List ℚ)
    (A B : List (List ℚ)) (a_i b_i : Nat) (hw : 0 < w)
    (ha : a_i < A.length) (hb : b_i < B.length) :
    vectorDotProductQ a b = ((a.zip b).map (fun p => p.1 * p.2)).sum
    ∧ vectorDotProductInt w ia ib
        = wrap w (((ia.zip ib).map (fun p => p.1 * p.2)).sum)
    ∧ vectorDotProductQ [1, 2, 3, 4] [5, 6, 7, 8] = 70
    ∧ (dotProductExpectedOutputs A B).length = A.length * B.length
    ∧ (dotProductExpectedOutputs A B).getD (resultIndex A.length a_i b_i) 0
        = vectorDotProductQ (A.getD a_i []) (B.getD b_i []) := by
  refine ⟨?_, ?_, ?_, ?_, ?_⟩
  · unfold vectorDotProductQ
    rw [foldl_add_mul_sum, zero_add]
  · exact vectorDotProductInt_eq_wrap_sum w hw ia ib
  · unfold vectorDotProductQ
    norm_num
  · unfold dotProductExpectedOutputs
    rw [length_foldl_set, List.length_replicate]
  · unfold dotProductExpectedOutputs
    have hmem : (a_i, b_i) ∈ (List.range A.length).flatMap
        (fun x => (List.range B.length).map (fun y => (x, y))) := by
      simp only [List.mem_flatMap, List.mem_map, List.mem_range]
      exact ⟨a_i, ha, b_i, hb, rfl⟩
    have := foldl_set_getD_mem
      ((List.range A.length).flatMap
        (fun x => (List.range B.length).map (fun y => (x, y))))
      (fun p => resultIndex A.length p.1 p.2)
      (fun p => vectorDotProductQ (A.getD p.1 []) (B.getD p.2 []))
      (resultIndex_map_nodup A.length B.length)
      (a_i, b_i) hmem
      (List.replicate (A.length * B.length) 0)
      (by rw [List.length_replicate]; exact resultIndex_lt _ _ _ _ ha hb)
    exact this

/-- C6 (witness): the ground-truth theorem instantiated at the single-sample
batches `A = [[1,2,3,4]]`, `B = [[5,6,7,8]]` of scenario S1. -/
theorem dotProduct_groundTruth_spec_witness :
    (dotProductExpectedOutputs [[(1 : ℚ), 2, 3, 4]] [[(5 : ℚ), 6, 7, 8]]).getD
        (resultIndex 1 0 0) 0
      = vectorDotProductQ [(1 : ℚ), 2, 3, 4] [(5 : ℚ), 6, 7, 8] :=
  (dotProduct_groundTruth_spec 32 [] [] [] [] [[(1 : ℚ), 2, 3, 4]]
    [[(5 : ℚ), 6, 7, 8]] 0 0 (by decide) (by decide) (by decide)).2.2.2.2

/-- C7.  For every workload parameterization, every seed and every data
type, running data generation twice from the same seed produces
bitwise-identical input buffers and bitwise-identical expected-output
buffers: the embedded Mersenne-Twister engine is seeded by
`RandomGenerator::setRandomSeed` and every draw is a deterministic function
of the engine state, so two runs from the same seed coincide. -/
theorem dataGeneration_deterministic (seed vector_size batch_a batch_b : Nat)
    (r1 r2 : List (List Nat) × List (List Nat) × List ℚ)
    (h1 : r1 = dotProductDataGenRun seed vector_size batch_a batch_b)
    (h2 : r2 = dotProductDataGenRun seed vector_size batch_a batch_b) :
    r1 = r2 :=
  h1.trans h2.symm

/-- C7 (witness): two runs at seed 0, vector size 1, batch sizes (1, 1). -/
theorem dataGeneration_deterministic_witness :
    dotProductDataGenRun 0 1 1 1 = dotProductDataGenRun 0 1 1 1 :=
  dataGeneration_deterministic 0 1 1 1 _ _ rfl rfl

/-- Helper: every character produced by the sanitizing map is alphanumeric,
a dot, or an underscore. -/
theorem sanitizeMap_shape (c : Char) :
    isAlnumAscii (sanitizeMap false c) ∨ sanitizeMap false c = '.'
      ∨ sanitizeMap false c = '_' := by
  unfold sanitizeMap
  by_cases h : isAlnumAscii c ∨ c = '.'
  · rw [if_pos h]
    rcases h with h | h
    · exact Or.inl h
    · exact Or.inr (Or.inl h)
  · rw [if_neg h]
    exact Or.inr (Or.inr rfl)
/-- Helper: the sanitizing map fixes alphanumeric characters, dots and
underscores. -/
theorem sanitizeMap_fixed (c : Char)
    (h : isAlnumAscii c ∨ c = '.' ∨ c = '_') : sanitizeMap false c = c := by
  rcases h with h | h | h
  · simp [sanitizeMap, h]
  · subst h; decide
  · subst h; decide
/-- Helper: collapsing only drops characters, never introduces them. -/
theorem collapseAux_subset (l : List Char) :
    ∀ prev c, c ∈ collapseAux prev l → c ∈ l := by
  induction l with
  | nil => intro prev c h; cases h
  | cons x xs ih =>
      intro prev c h
      unfold collapseAux at h
      by_cases hb : prev = '_' ∧ x = '_'
      · rw [if_pos hb] at h
        exact List.mem_cons_of_mem _ (ih prev c h)
      · rw [if_neg hb] at h
        rcases List.mem_cons.mp h with h | h
        · exact h ▸ List.mem_cons_self _ _
        · exact List.mem_cons_of_mem _ (ih x c h)
/-- Helper: after collapsing, no two consecutive underscores remain. -/
theorem collapseAux_chain' (l : List Char) :
    ∀ prev, List.Chain' (fun a b => ¬(a = '_' ∧ b = '_'))
      (prev :: collapseAux prev l) := by
  induction l with
  | nil => intro prev; simp [collapseAux]
  | cons x xs ih =>
      intro prev
      unfold collapseAux
      by_cases hb : prev = '_' ∧ x = '_'
      · rw [if_pos hb]
        exact ih prev
      · rw [if_neg hb]
        exact List.chain'_cons.mpr ⟨hb, ih x⟩
/-- Helper: collapsing preserves a non-underscore final character. -/
theorem collapseAux_getLast (l : List Char) :
    ∀ prev, (prev :: l).getLast? ≠ some '_' →
      (prev :: collapseAux prev l).getLast? ≠ some '_' := by
  induction l with
  | nil => intro prev h; simpa [collapseAux] using h
  | cons x xs ih =>
      intro prev h
      unfold collapseAux
      by_cases hb : prev = '_' ∧ x = '_'
      · rw [if_pos hb]
        apply ih prev
        cases xs with
        | nil =>
            exfalso
            apply h
            rw [List.getLast?_cons_cons]
            simp [hb.2]
        | cons y ys =>
            rw [List.getLast?_cons_cons]
            rw [List.getLast?_cons_cons, List.getLast?_cons_cons] at h
            exact h
      · rw [if_neg hb]
        rw [List.getLast?_cons_cons]
        apply ih x
        rw [List.getLast?_cons_cons] at h
        exact h
/-- Helper: collapsing fixes a list with no two consecutive underscores. -/
theorem collapseAux_fixed (l : List Char) :
    ∀ prev, (l.head? = some '_' → prev ≠ '_') →
      List.Chain' (fun a b => ¬(a = '_' ∧ b = '_')) l →
      collapseAux prev l = l := by
  induction l with
  | nil => intro prev _ _; rfl
  | cons x xs ih =>
      intro prev hhead hchain
      unfold collapseAux
      have hb : ¬(prev = '_' ∧ x = '_') := by
        intro ⟨hp, hx⟩
        exact hhead (by simp [hx]) hp
      rw [if_neg hb]
      congr 1
      apply ih x
      · intro hxs hx
        cases xs with
        | nil => cases hxs
        | cons y ys =>
            have := (List.chain'_cons.mp hchain).1
            simp at hxs
            exact this ⟨hx, hxs⟩
      · exact hchain.tail
/-- Helper: the head of a `dropWhile` result fails the predicate. -/
theorem dropWhile_head?_not {p : Char → Bool} (l : List Char) (c : Char)
    (h : (l.dropWhile p).head? = some c) : p c = false := by
  induction l with
  | nil => cases h
  | cons x xs ih =>
      rw [List.dropWhile_cons] at h
      by_cases hx : p x
      · rw [if_pos hx] at h
        exact ih h
      · rw [if_neg hx] at h
        simp at h
        subst h
        exact Bool.not_eq_true _ ▸ (by simpa using hx)
/-- Helper: a member failing the predicate survives `dropWhile`. -/
theorem mem_dropWhile_of_mem {p : Char → Bool} (l : List Char) (c : Char)
    (hc : c ∈ l) (hp : p c = false) : c ∈ l.dropWhile p := by
  have := List.takeWhile_append_dropWhile p l
  rcases List.mem_append.mp (this ▸ hc) with h | h
  · have := List.mem_takeWhile_imp h
    rw [hp] at this
    cases this
  · exact h
/-- Helper: `dropWhile` fixes a list whose head fails the predicate. -/
theorem dropWhile_eq_self_of_head {p : Char → Bool} (l : List Char)
    (h : ∀ c, l.head? = some c → p c = false) : l.dropWhile p = l := by
  cases l with
  | nil => rfl
  | cons x xs =>
      rw [List.dropWhile_cons, if_neg]
      simp [h x rfl]
/-- Helper: structural facts about the sanitizer output: every character is
alphanumeric, a dot or an underscore; no leading underscore; no trailing
underscore; no two consecutive underscores. -/
theorem convertChars_props (s : List Char) :
    (∀ c ∈ convertToDirectoryNameChars s false,
        isAlnumAscii c ∨ c = '.' ∨ c = '_')
    ∧ (convertToDirectoryNameChars s false).head? ≠ some '_'
    ∧ (convertToDirectoryNameChars s false).getLast? ≠ some '_'
    ∧ List.Chain' (fun a b => ¬(a = '_' ∧ b = '_'))
        (convertToDirectoryNameChars s false) := by
  have hrw : convertToDirectoryNameChars s false
      = collapseUnderscores
          ((((s.map (sanitizeMap false)).dropWhile (fun d => d = '_')).reverse.dropWhile
            (fun d => d = '_')).reverse) := rfl
  rw [hrw]
  set mapped := s.map (sanitizeMap false) with hm
  set dropped := mapped.dropWhile (fun d => d = '_') with hd
  set inner := dropped.reverse.dropWhile (fun d => d = '_') with hi
  have hmem_stripped : ∀ c ∈ inner.reverse, c ∈ mapped := by
    intro c hc
    have h1 : c ∈ inner := List.mem_reverse.mp hc
    have h2 : c ∈ dropped.reverse := ((List.dropWhile_suffix _).sublist).mem h1
    have h3 : c ∈ dropped := List.mem_reverse.mp h2
    exact ((List.dropWhile_suffix _).sublist).mem h3
  have hshape : ∀ c ∈ inner.reverse, isAlnumAscii c ∨ c = '.' ∨ c = '_' := by
    intro c hc
    rcases List.mem_map.mp (hmem_stripped c hc) with ⟨y, _, hy⟩
    rw [← hy]
    exact sanitizeMap_shape y
  cases hstr : inner.reverse with
  | nil => simp [collapseUnderscores]
  | cons c cs =>
      have hhead_eq : (inner.reverse).head? = dropped.head? := by
        have h2 : inner ≠ [] := by
          intro h
          rw [h] at hstr
          cases hstr
        calc (inner.reverse).head? = inner.getLast? := List.head?_reverse inner
          _ = dropped.reverse.getLast? := by
              conv_rhs => rw [← List.takeWhile_append_dropWhile
                (fun d => d = '_') dropped.reverse]
              rw [List.getLast?_append_of_ne_nil _ h2]
          _ = dropped.head? := List.getLast?_reverse dropped
      have hc_ne : c ≠ '_' := by
        have : dropped.head? = some c := by
          rw [← hhead_eq, hstr]
          rfl
        have := dropWhile_head?_not mapped c this
        simpa using this
      have hlast_ne : (inner.reverse).getLast? ≠ some '_' := by
        rw [List.getLast?_reverse inner]
        intro h
        have := dropWhile_head?_not dropped.reverse '_' h
        simp at this
      refine ⟨?_, ?_, ?_, ?_⟩
      · intro x hx
        unfold collapseUnderscores at hx
        rcases List.mem_cons.mp hx with h | h
        · exact hshape x (by rw [hstr]; exact h ▸ List.mem_cons_self _ _)
        · have := collapseAux_subset cs c x h
          exact hshape x (by rw [hstr]; exact List.mem_cons_of_mem _ this)
      · unfold collapseUnderscores
        simp only [List.head?_cons]
        intro h
        apply hc_ne
        simpa using h
      · unfold collapseUnderscores
        exact collapseAux_getLast cs c (hstr ▸ hlast_ne)
      · unfold collapseUnderscores
        exact collapseAux_chain' cs c
/-- Helper: the sanitizer fixes any list already in sanitized shape. -/
theorem convertChars_fixed (l : List Char)
    (hP : ∀ c ∈ l, isAlnumAscii c ∨ c = '.' ∨ c = '_')
    (hh : l.head? ≠ some '_') (hl : l.getLast? ≠ some '_')
    (hc : List.Chain' (fun a b => ¬(a = '_' ∧ b = '_')) l) :
    convertToDirectoryNameChars l false = l := by
  have hrw : convertToDirectoryNameChars l false
      = collapseUnderscores
          ((((l.map (sanitizeMap false)).dropWhile (fun d => d = '_')).reverse.dropWhile
            (fun d => d = '_')).reverse) := rfl
  rw [hrw]
  have hmap : l.map (sanitizeMap false) = l := by
    conv_rhs => rw [← List.map_id l]
    exact List.map_congr_left (fun c hcl => sanitizeMap_fixed c (hP c hcl))
  rw [hmap]
  have hdrop1 : l.dropWhile (fun d => d = '_') = l := by
    apply dropWhile_eq_self_of_head
    intro c hcl
    have : c ≠ '_' := by
      intro he
      exact hh (by rw [hcl, he])
    simpa using this
  rw [hdrop1]
  have hdrop2 : l.reverse.dropWhile (fun d => d = '_') = l.reverse := by
    apply dropWhile_eq_self_of_head
    intro c hcl
    rw [List.head?_reverse] at hcl
    have : c ≠ '_' := by
      intro he
      exact hl (by rw [hcl, he])
    simpa using this
  rw [hdrop2, List.reverse_reverse]
  cases l with
  | nil => rfl
  | cons x xs =>
      show x :: collapseAux x xs = x :: xs
      congr 1
      apply collapseAux_fixed
      · intro hxs hx
        cases xs with
        | nil => cases hxs
        | cons y ys =>
            have := (List.chain'_cons.mp hc).1
            simp at hxs
            exact this ⟨hx, hxs⟩
      · exact hc.tail
/-- Helper: the sanitizer output is non-empty whenever the input contains
an alphanumeric character or a dot. -/
theorem convertChars_ne_nil (s : List Char) (c : Char) (hc : c ∈ s)
    (h : isAlnumAscii c ∨ c = '.') :
    convertToDirectoryNameChars s false ≠ [] := by
  have hrw : convertToDirectoryNameChars s false
      = collapseUnderscores
          ((((s.map (sanitizeMap false)).dropWhile (fun d => d = '_')).reverse.dropWhile
            (fun d => d = '_')).reverse) := rfl
  rw [hrw]
  have hne : c ≠ '_' := by
    rcases h with h | h
    · intro he
      rw [he] at h
      exact absurd h (by decide)
    · subst h; decide
  have hp : (fun d => decide (d = '_')) c = false := by simpa using hne
  have h1 : c ∈ s.map (sanitizeMap false) := by
    have := List.mem_map_of_mem (sanitizeMap false) hc
    rwa [sanitizeMap_fixed c (Or.imp_right Or.inl h)] at this
  have h2 : c ∈ (s.map (sanitizeMap false)).dropWhile (fun d => d = '_') :=
    mem_dropWhile_of_mem _ c h1 hp
  have h3 : c ∈ ((s.map (sanitizeMap false)).dropWhile (fun d => d = '_')).reverse :=
    List.mem_reverse.mpr h2
  have h4 : c ∈ ((s.map (sanitizeMap false)).dropWhile
      (fun d => d = '_')).reverse.dropWhile (fun d => d = '_') :=
    mem_dropWhile_of_mem _ c h3 hp
  have h5 : c ∈ (((s.map (sanitizeMap false)).dropWhile
      (fun d => d = '_')).reverse.dropWhile (fun d => d = '_')).reverse :=
    List.mem_reverse.mpr h4
  intro hnil
  rcases hx : (((s.map (sanitizeMap false)).dropWhile
      (fun d => d = '_')).reverse.dropWhile (fun d => d = '_')).reverse with _ | ⟨y, ys⟩
  · rw [hx] at h5; cases h5
  · rw [hx] at hnil
    cases hnil
/-- C8.  The directory-name sanitizer is idempotent: for every input
string `s`, `sanitize(sanitize(s)) = sanitize(s)`. -/
theorem convertToDirectoryName_idempotent (s : String) :
    convertToDirectoryName (convertToDirectoryName s) = convertToDirectoryName s := by
  unfold convertToDirectoryName
  congr 1
  show convertToDirectoryNameChars (convertToDirectoryNameChars s.data false) false
      = convertToDirectoryNameChars s.data false
  obtain ⟨hP, hh, hl, hc⟩ := convertChars_props s.data
  exact convertChars_fixed _ hP hh hl hc
/-- C9 (amended).  For every input string, every character of the sanitized
canonical-path segment is alphanumeric, a dot, or an underscore (so the
segment matches `[A-Za-z0-9._]*`); alphanumeric characters and dots are
preserved and every other character becomes an underscore with runs
collapsed to one (no two consecutive underscores remain), and the result
has no leading or trailing underscores.  The segment is non-empty whenever
the input contains at least one alphanumeric character or dot; an input
with none sanitizes to the empty string. -/
theorem sanitizer_segment_spec (s : String) :
    (∀ c ∈ (convertToDirectoryName s).data, isAlnumAscii c ∨ c = '.' ∨ c = '_')
    ∧ (convertToDirectoryName s).data.head? ≠ some '_'
    ∧ (convertToDirectoryName s).data.getLast? ≠ some '_'
    ∧ List.Chain' (fun a b => ¬(a = '_' ∧ b = '_')) (convertToDirectoryName s).data
    ∧ ∀ c ∈ s.data, (isAlnumAscii c ∨ c = '.') →
        (convertToDirectoryName s).data ≠ [] := by
  obtain ⟨hP, hh, hl, hc⟩ := convertChars_props s.data
  exact ⟨hP, hh, hl, hc, fun c hcs hcd => convertChars_ne_nil s.data c hcs hcd⟩
/-- C9 (counterexample).  The claim asserts the sanitized segment is always
non-empty (matches `[A-Za-z0-9._]+`); the input `"-"` sanitizes to the
empty string. -/
theorem sanitizer_nonempty_refuted : convertToDirectoryName "-" = "" := by decide
/-- C9 (witness): the segment theorem instantiated at the input `"a b"`,
whose character `a` is alphanumeric, so the output is non-empty. -/
theorem sanitizer_segment_spec_witness :
    (convertToDirectoryName (String.mk ['a', ' ', 'b'])).data ≠ [] :=
  (sanitizer_segment_spec (String.mk ['a', ' ', 'b'])).2.2.2.2 'a' (by decide) (by decide)

end HeBench
